import Mathlib

/-!
Verification development for a scalar reverse-mode automatic-differentiation
engine (`engine.rs`) with a small neural-network layer (`nn.rs`).

The heap of `Rc<RefCell<Data>>` nodes is modelled as a `Store`: a total map
from node identities (`Nat`) to node records, together with the number of
nodes allocated so far.  Allocation writes at index `len` and increments
`len`, so in every store produced by the builders each node's parents have
strictly smaller identities (`WfStore`).  The `f64` scalars are modelled by
a linear ordered field; the transcendental primitives (`tanh`, `exp`, `ln`,
`powf`) are an injected record of functions `FloatFns`, mirroring that the
engine only ever calls them pointwise.

Each backward closure of the source captures some values at construction
time and holds handles to its operand nodes; this is modelled by the
inductive `BackRule`, whose fields are exactly the captured data of the
corresponding Rust closure (`Mul` captures only the two handles and reads
their current `data` when invoked, matching the source).
-/

set_option autoImplicit false
set_option linter.unusedSectionVars false
set_option linter.unusedVariables false

namespace AutoDiff

/-- The injected scalar primitives corresponding to the `f64` methods used
by the engine. -/
structure FloatFns (R : Type) where
  tanh : R → R
  exp : R → R
  log : R → R
  powf : R → R → R

/-- `enum Ops` of the source. -/
inductive Ops (R : Type) where
  | add
  | sub
  | mul
  | tanh
  | exp
  | log
  | pow (k : R)
  | relu

/-- The data captured by each `_backward` closure in the source, together
with the operand handles it holds.  Field names follow the captured
variables of the corresponding closure. -/
inductive BackRule (R : Type) where
  | tanhR (input : Nat) (t : R)
  | reluR (input : Nat) (x : R)
  | powR (input : Nat) (x : R) (k : R)
  | expR (input : Nat) (outData : R)
  | logR (input : Nat) (x : R)
  | addR (left right : Nat)
  | mulR (left right : Nat)

/-- `struct Data` of the source (`_backward` is modelled by `bwd`). -/
structure Data (R : Type) where
  data : R
  grad : R
  parents : List Nat
  op : Option (Ops R)
  bwd : Option (BackRule R)

/-- The heap of allocated nodes: node identities are `Nat`, `nd` gives the
record stored at each identity, `len` is the number of allocations so far. -/
structure Store (R : Type) where
  len : Nat
  nd : Nat → Data R

variable {R : Type} [LinearOrderedField R]

/-- The store with no allocated nodes. -/
def emptyStore : Store R :=
  ⟨0, fun _ => ⟨0, 0, [], none, none⟩⟩

/-- Allocate a fresh node, returning the new store and the new identity. -/
def alloc (s : Store R) (d : Data R) : Store R × Nat :=
  (⟨s.len + 1, Function.update s.nd s.len d⟩, s.len)

/-- Overwrite the gradient accumulator of node `i`. -/
def setGrad (s : Store R) (i : Nat) (g : R) : Store R :=
  ⟨s.len, Function.update s.nd i { s.nd i with grad := g }⟩

/-- `grad += c` on node `i`, as performed by every backward closure. -/
def addGrad (s : Store R) (i : Nat) (c : R) : Store R :=
  setGrad s i ((s.nd i).grad + c)

/-- Overwrite the forward value of node `i` (used by the optimizer). -/
def setData (s : Store R) (i : Nat) (x : R) : Store R :=
  ⟨s.len, Function.update s.nd i { s.nd i with data := x }⟩

namespace Value

/-- `Value::new`. -/
def new (s : Store R) (x : R) : Store R × Nat :=
  alloc s ⟨x, 0, [], none, none⟩

/-- `Value::tanh`: captures `t = tanh x` at construction. -/
def tanh (F : FloatFns R) (s : Store R) (a : Nat) : Store R × Nat :=
  let x := (s.nd a).data
  let t := F.tanh x
  alloc s ⟨t, 0, [a], some Ops.tanh, some (BackRule.tanhR a t)⟩

/-- `Value::relu`: forward is `if x < 0 { 0 } else { x }`, the closure
captures `x`. -/
def relu (s : Store R) (a : Nat) : Store R × Nat :=
  let x := (s.nd a).data
  let val := if x < 0 then 0 else x
  alloc s ⟨val, 0, [a], some Ops.relu, some (BackRule.reluR a x)⟩

/-- `Value::pow`: captures the base `x` and the exponent. -/
def pow (F : FloatFns R) (s : Store R) (a : Nat) (k : R) : Store R × Nat :=
  let x := (s.nd a).data
  alloc s ⟨F.powf x k, 0, [a], some (Ops.pow k), some (BackRule.powR a x k)⟩

/-- `Value::exp`: the closure captures the output value `out_data`. -/
def exp (F : FloatFns R) (s : Store R) (a : Nat) : Store R × Nat :=
  let x := (s.nd a).data
  alloc s ⟨F.exp x, 0, [a], some Ops.exp, some (BackRule.expR a (F.exp x))⟩

/-- `Value::log`: the closure captures the input value `x`. -/
def log (F : FloatFns R) (s : Store R) (a : Nat) : Store R × Nat :=
  let x := (s.nd a).data
  alloc s ⟨F.log x, 0, [a], some Ops.log, some (BackRule.logR a x)⟩

/-- `impl Add<&Value> for &Value`. -/
def add (s : Store R) (a b : Nat) : Store R × Nat :=
  let sum := (s.nd a).data + (s.nd b).data
  alloc s ⟨sum, 0, [a, b], some Ops.add, some (BackRule.addR a b)⟩

/-- `impl Mul<&Value> for &Value`: the closure captures only the two
handles; operand values are read when it runs. -/
def mul (s : Store R) (a b : Nat) : Store R × Nat :=
  let product := (s.nd a).data * (s.nd b).data
  alloc s ⟨product, 0, [a, b], some Ops.mul, some (BackRule.mulR a b)⟩

/-- `impl Neg`: `self * -1.0`, which first wraps `-1` as a fresh leaf. -/
def neg (s : Store R) (a : Nat) : Store R × Nat :=
  let p := new s (-1)
  mul p.1 a p.2

/-- `impl Sub`: `self + &(-rhs)`. -/
def sub (s : Store R) (a b : Nat) : Store R × Nat :=
  let p := neg s b
  add p.1 a p.2

/-- `impl Div`: `self * &rhs.pow(-1.0)`. -/
def div (F : FloatFns R) (s : Store R) (a b : Nat) : Store R × Nat :=
  let p := pow F s b (-1)
  mul p.1 a p.2

end Value

/-- Execute the backward closure of node `i`, if any: exactly the bodies of
the `_backward` closures in the source, reading `out_grad` from the node
itself and accumulating into the operands. -/
def runRule (F : FloatFns R) (s : Store R) (i : Nat) : Store R :=
  match (s.nd i).bwd with
  | none => s
  | some r =>
    let g := (s.nd i).grad
    match r with
    | BackRule.tanhR a t => addGrad s a ((1 - t * t) * g)
    | BackRule.reluR a x => addGrad s a ((if x > 0 then 1 else 0) * g)
    | BackRule.powR a x k => addGrad s a ((k * F.powf x (k - 1)) * g)
    | BackRule.expR a d => addGrad s a (d * g)
    | BackRule.logR a x => addGrad s a ((1 / x) * g)
    | BackRule.addR a b => addGrad (addGrad s a g) b g
    | BackRule.mulR a b =>
        addGrad (addGrad s a ((s.nd b).data * g)) b ((s.nd a).data * g)

/-- `build_topo` of the source: depth-first search keyed by node identity,
marking a node visited before recursing into its parents and appending it
afterwards.  The extra fuel argument only ensures termination; on stores
whose parents have smaller identities, fuel `v + 1` is never exhausted. -/
def dfsF (s : Store R) : Nat → Nat → List Nat × List Nat → List Nat × List Nat
  | 0, _, st => st
  | fuel + 1, v, st =>
    if v ∈ st.1 then st
    else
      let st2 := (s.nd v).parents.foldl (fun acc p => dfsF s fuel p acc) (v :: st.1, st.2)
      (st2.1, st2.2 ++ [v])

/-- The topological order built by `Value::backward` before the reverse
pass, starting from empty visited set and empty order. -/
def buildTopo (s : Store R) (r : Nat) : List Nat :=
  (dfsF s s.len r ([], [])).2

/-- `Value::backward`: build the order, seed the root gradient with `1.0`
(overwriting it), then run each backward closure in reverse order. -/
def backward (F : FloatFns R) (s : Store R) (r : Nat) : Store R :=
  (buildTopo s r).reverse.foldl (fun acc v => runRule F acc v) (setGrad s r 1)

/-- `struct SGD` of the source: a parameter list and a learning rate. -/
structure SGD (R : Type) where
  params : List Nat
  lr : R

/-- `SGD::step`: `data -= lr * grad` on each parameter, in place. -/
def SGD.step (o : SGD R) (s : Store R) : Store R :=
  o.params.foldl (fun acc p => setData acc p ((acc.nd p).data - o.lr * (acc.nd p).grad)) s

/-- The operand handles held by a backward closure. -/
def ruleTargets : Option (BackRule R) → List Nat
  | none => []
  | some (BackRule.tanhR a _) => [a]
  | some (BackRule.reluR a _) => [a]
  | some (BackRule.powR a _ _) => [a]
  | some (BackRule.expR a _) => [a]
  | some (BackRule.logR a _) => [a]
  | some (BackRule.addR a b) => [a, b]
  | some (BackRule.mulR a b) => [a, b]

/-- Store well-formedness: every node's parents were allocated before it
(true of every store the builders produce, and the shape under which the
source's recursive `build_topo` terminates), and every backward closure
only holds handles to its node's parents. -/
def WfStore (s : Store R) : Prop :=
  ∀ i, (∀ p ∈ (s.nd i).parents, p < i) ∧
    (∀ t ∈ ruleTargets (s.nd i).bwd, t ∈ (s.nd i).parents)

/-! ### Basic frame lemmas for the store operations -/

theorem alloc_fst_len (s : Store R) (d : Data R) : (alloc s d).1.len = s.len + 1 := rfl

theorem alloc_snd (s : Store R) (d : Data R) : (alloc s d).2 = s.len := rfl

theorem alloc_nd_ne (s : Store R) (d : Data R) {j : Nat} (h : j ≠ s.len) :
    (alloc s d).1.nd j = s.nd j := by
  simp [alloc, Function.update_noteq h]

theorem alloc_nd_self (s : Store R) (d : Data R) : (alloc s d).1.nd s.len = d := by
  simp [alloc]

theorem setGrad_len (s : Store R) (i : Nat) (g : R) : (setGrad s i g).len = s.len := rfl

theorem setGrad_nd_self (s : Store R) (i : Nat) (g : R) :
    (setGrad s i g).nd i = { s.nd i with grad := g } := by
  simp [setGrad]

theorem setGrad_nd_ne (s : Store R) {i j : Nat} (g : R) (h : j ≠ i) :
    (setGrad s i g).nd j = s.nd j := by
  simp [setGrad, Function.update_noteq h]

theorem setGrad_parents (s : Store R) (i : Nat) (g : R) (j : Nat) :
    ((setGrad s i g).nd j).parents = (s.nd j).parents := by
  by_cases h : j = i
  · subst h; rw [setGrad_nd_self]
  · rw [setGrad_nd_ne s g h]

theorem setGrad_bwd (s : Store R) (i : Nat) (g : R) (j : Nat) :
    ((setGrad s i g).nd j).bwd = (s.nd j).bwd := by
  by_cases h : j = i
  · subst h; rw [setGrad_nd_self]
  · rw [setGrad_nd_ne s g h]

theorem setGrad_data (s : Store R) (i : Nat) (g : R) (j : Nat) :
    ((setGrad s i g).nd j).data = (s.nd j).data := by
  by_cases h : j = i
  · subst h; rw [setGrad_nd_self]
  · rw [setGrad_nd_ne s g h]

theorem setGrad_op (s : Store R) (i : Nat) (g : R) (j : Nat) :
    ((setGrad s i g).nd j).op = (s.nd j).op := by
  by_cases h : j = i
  · subst h; rw [setGrad_nd_self]
  · rw [setGrad_nd_ne s g h]

theorem setGrad_grad_self (s : Store R) (i : Nat) (g : R) :
    ((setGrad s i g).nd i).grad = g := by
  rw [setGrad_nd_self]

theorem addGrad_len (s : Store R) (i : Nat) (c : R) : (addGrad s i c).len = s.len := rfl

theorem addGrad_grad_self (s : Store R) (i : Nat) (c : R) :
    ((addGrad s i c).nd i).grad = (s.nd i).grad + c := by
  rw [addGrad, setGrad_nd_self]

theorem addGrad_nd_ne (s : Store R) {i j : Nat} (c : R) (h : j ≠ i) :
    (addGrad s i c).nd j = s.nd j := setGrad_nd_ne s _ h

theorem addGrad_parents (s : Store R) (i : Nat) (c : R) (j : Nat) :
    ((addGrad s i c).nd j).parents = (s.nd j).parents := setGrad_parents s i _ j

theorem addGrad_bwd (s : Store R) (i : Nat) (c : R) (j : Nat) :
    ((addGrad s i c).nd j).bwd = (s.nd j).bwd := setGrad_bwd s i _ j

theorem addGrad_data (s : Store R) (i : Nat) (c : R) (j : Nat) :
    ((addGrad s i c).nd j).data = (s.nd j).data := setGrad_data s i _ j

theorem addGrad_op (s : Store R) (i : Nat) (c : R) (j : Nat) :
    ((addGrad s i c).nd j).op = (s.nd j).op := setGrad_op s i _ j

theorem setData_len (s : Store R) (i : Nat) (x : R) : (setData s i x).len = s.len := rfl

theorem setData_nd_self (s : Store R) (i : Nat) (x : R) :
    (setData s i x).nd i = { s.nd i with data := x } := by
  simp [setData]

theorem setData_nd_ne (s : Store R) {i j : Nat} (x : R) (h : j ≠ i) :
    (setData s i x).nd j = s.nd j := by
  simp [setData, Function.update_noteq h]

theorem setData_grad (s : Store R) (i : Nat) (x : R) (j : Nat) :
    ((setData s i x).nd j).grad = (s.nd j).grad := by
  by_cases h : j = i
  · subst h; rw [setData_nd_self]
  · rw [setData_nd_ne s x h]

theorem setData_parents (s : Store R) (i : Nat) (x : R) (j : Nat) :
    ((setData s i x).nd j).parents = (s.nd j).parents := by
  by_cases h : j = i
  · subst h; rw [setData_nd_self]
  · rw [setData_nd_ne s x h]

theorem setData_bwd (s : Store R) (i : Nat) (x : R) (j : Nat) :
    ((setData s i x).nd j).bwd = (s.nd j).bwd := by
  by_cases h : j = i
  · subst h; rw [setData_nd_self]
  · rw [setData_nd_ne s x h]

theorem setData_op (s : Store R) (i : Nat) (x : R) (j : Nat) :
    ((setData s i x).nd j).op = (s.nd j).op := by
  by_cases h : j = i
  · subst h; rw [setData_nd_self]
  · rw [setData_nd_ne s x h]

/-! ### Frame lemmas for a single backward-closure invocation -/

theorem runRule_len (F : FloatFns R) (s : Store R) (i : Nat) : (runRule F s i).len = s.len := by
  unfold runRule
  cases h : (s.nd i).bwd with
  | none => rfl
  | some r => cases r <;> rfl

theorem runRule_parents (F : FloatFns R) (s : Store R) (i j : Nat) :
    ((runRule F s i).nd j).parents = (s.nd j).parents := by
  unfold runRule
  cases h : (s.nd i).bwd with
  | none => rfl
  | some r => cases r <;> simp [addGrad_parents]

theorem runRule_bwd (F : FloatFns R) (s : Store R) (i j : Nat) :
    ((runRule F s i).nd j).bwd = (s.nd j).bwd := by
  unfold runRule
  cases h : (s.nd i).bwd with
  | none => rfl
  | some r => cases r <;> simp [addGrad_bwd]

theorem runRule_data (F : FloatFns R) (s : Store R) (i j : Nat) :
    ((runRule F s i).nd j).data = (s.nd j).data := by
  unfold runRule
  cases h : (s.nd i).bwd with
  | none => rfl
  | some r => cases r <;> simp [addGrad_data]

theorem runRule_op (F : FloatFns R) (s : Store R) (i j : Nat) :
    ((runRule F s i).nd j).op = (s.nd j).op := by
  unfold runRule
  cases h : (s.nd i).bwd with
  | none => rfl
  | some r => cases r <;> simp [addGrad_op]

/-- A backward-closure invocation of node `i` leaves every gradient outside
its operand handles untouched. -/
theorem runRule_grad_ne (F : FloatFns R) (s : Store R) {i j : Nat}
    (h : j ∉ ruleTargets (s.nd i).bwd) : ((runRule F s i).nd j).grad = (s.nd j).grad := by
  unfold runRule
  cases hb : (s.nd i).bwd with
  | none => rfl
  | some r =>
    rw [hb] at h
    cases r with
    | tanhR a t =>
        simp only [ruleTargets, List.mem_singleton] at h
        rw [addGrad_nd_ne s _ h]
    | reluR a x =>
        simp only [ruleTargets, List.mem_singleton] at h
        rw [addGrad_nd_ne s _ h]
    | powR a x k =>
        simp only [ruleTargets, List.mem_singleton] at h
        rw [addGrad_nd_ne s _ h]
    | expR a d =>
        simp only [ruleTargets, List.mem_singleton] at h
        rw [addGrad_nd_ne s _ h]
    | logR a x =>
        simp only [ruleTargets, List.mem_singleton] at h
        rw [addGrad_nd_ne s _ h]
    | addR a b =>
        simp only [ruleTargets, List.mem_cons, List.not_mem_nil, or_false, not_or] at h
        rw [addGrad_nd_ne _ _ h.2, addGrad_nd_ne s _ h.1]
    | mulR a b =>
        simp only [ruleTargets, List.mem_cons, List.not_mem_nil, or_false, not_or] at h
        rw [addGrad_nd_ne _ _ h.2, addGrad_nd_ne s _ h.1]

/-! ### Well-formedness preservation -/

theorem WfStore.of_fields_eq {s s' : Store R} (hw : WfStore s)
    (hp : ∀ j, (s'.nd j).parents = (s.nd j).parents)
    (hb : ∀ j, (s'.nd j).bwd = (s.nd j).bwd) : WfStore s' := by
  intro j
  rw [hp j, hb j]
  exact hw j

theorem WfStore.setGrad {s : Store R} (hw : WfStore s) (i : Nat) (g : R) :
    WfStore (setGrad s i g) :=
  hw.of_fields_eq (setGrad_parents s i g) (setGrad_bwd s i g)

theorem WfStore.addGrad {s : Store R} (hw : WfStore s) (i : Nat) (c : R) :
    WfStore (addGrad s i c) :=
  hw.of_fields_eq (addGrad_parents s i c) (addGrad_bwd s i c)

theorem WfStore.setData {s : Store R} (hw : WfStore s) (i : Nat) (x : R) :
    WfStore (setData s i x) :=
  hw.of_fields_eq (setData_parents s i x) (setData_bwd s i x)

theorem WfStore.runRule {s : Store R} (hw : WfStore s) (F : FloatFns R) (i : Nat) :
    WfStore (runRule F s i) :=
  hw.of_fields_eq (runRule_parents F s i) (runRule_bwd F s i)

theorem WfStore.alloc {s : Store R} (hw : WfStore s) {d : Data R}
    (hpar : ∀ p ∈ d.parents, p < s.len)
    (ht : ∀ t ∈ ruleTargets d.bwd, t ∈ d.parents) : WfStore (alloc s d).1 := by
  intro j
  by_cases hj : j = s.len
  · subst hj
    rw [alloc_nd_self]
    exact ⟨hpar, ht⟩
  · rw [alloc_nd_ne s d hj]
    exact hw j

theorem WfStore.emptyStore : WfStore (emptyStore : Store R) := by
  intro j
  constructor
  · intro p hp
    simp [AutoDiff.emptyStore] at hp
  · intro t ht
    simp [AutoDiff.emptyStore, ruleTargets] at ht

/-! ### Specification of the depth-first order construction

`DfsInv` relates the visited set, the order built so far, and the ghost
stack `pend` of nodes whose processing is still open: the visited set is
exactly the union of the two, the order is duplicate-free and closed under
parents, and no node of the order is followed by one of its parents. -/

def DfsInv (s : Store R) (pend : List Nat) (st : List Nat × List Nat) : Prop :=
  (∀ x, x ∈ st.1 ↔ (x ∈ st.2 ∨ x ∈ pend)) ∧
  st.2.Nodup ∧
  (∀ x ∈ st.2, x ∉ pend) ∧
  (∀ u ∈ st.2, ∀ p ∈ (s.nd u).parents, p ∈ st.2) ∧
  st.2.Pairwise (fun x y => y ∉ (s.nd x).parents)

/-- Combined postcondition of one `build_topo` call on node `v`. -/
def DfsPost (s : Store R) (pend : List Nat) (v : Nat)
    (st st' : List Nat × List Nat) : Prop :=
  DfsInv s pend st' ∧
  v ∈ st'.2 ∧
  (∃ d, st'.2 = st.2 ++ d ∧ ∀ x ∈ d, x ≤ v) ∧
  (∀ x ∈ st.1, x ∈ st'.1)

/-- Effect of folding `build_topo` over a list of nodes (the recursion over
`parents` in the source), given the specification of each single call. -/
theorem dfsFold_spec {s : Store R} (fuel : Nat)
    (IH : ∀ v st pend, v < fuel → DfsInv s pend st → (∀ x ∈ pend, v < x) →
      DfsPost s pend v st (dfsF s fuel v st)) :
    ∀ (ps : List Nat) (st : List Nat × List Nat) (pend : List Nat) (B : Nat),
      (∀ p ∈ ps, p < fuel ∧ p ≤ B ∧ ∀ x ∈ pend, p < x) →
      DfsInv s pend st →
      DfsInv s pend (ps.foldl (fun acc p => dfsF s fuel p acc) st) ∧
      (∀ p ∈ ps, p ∈ (ps.foldl (fun acc p => dfsF s fuel p acc) st).2) ∧
      (∃ d, (ps.foldl (fun acc p => dfsF s fuel p acc) st).2 = st.2 ++ d ∧
        ∀ x ∈ d, x ≤ B) ∧
      (∀ x ∈ st.1, x ∈ (ps.foldl (fun acc p => dfsF s fuel p acc) st).1) := by
  intro ps
  induction ps with
  | nil =>
      intro st pend B _ hinv
      refine ⟨hinv, by simp, ⟨[], by simp⟩, fun x hx => hx⟩
  | cons p ps ih =>
      intro st pend B hps hinv
      have hp := hps p (List.mem_cons_self p ps)
      have hpost := IH p st pend hp.1 hinv hp.2.2
      obtain ⟨invA, hmemA, ⟨dA, hdA, hdAle⟩, hmonoA⟩ := hpost
      have hrest := ih (dfsF s fuel p st) pend B
        (fun q hq => hps q (List.mem_cons_of_mem p hq)) invA
      obtain ⟨invF, hmemF, ⟨dB, hdB, hdBle⟩, hmonoF⟩ := hrest
      rw [List.foldl_cons]
      refine ⟨invF, ?_, ⟨dA ++ dB, ?_, ?_⟩, fun x hx => hmonoF x (hmonoA x hx)⟩
      · intro q hq
        rcases List.mem_cons.mp hq with hq | hq
        · subst hq
          rw [hdB]
          exact List.mem_append_left dB hmemA
        · exact hmemF q hq
      · rw [hdB, hdA, List.append_assoc]
      · intro x hx
        rcases List.mem_append.mp hx with hx | hx
        · exact le_trans (hdAle x hx) hp.2.1
        · exact hdBle x hx

/-- Main specification of `build_topo` on a well-formed store: each call
preserves the invariant (with the same open stack), puts `v` into the
order, and only appends nodes with identity at most `v`. -/
theorem dfsF_spec {s : Store R} (hw : WfStore s) :
    ∀ (fuel : Nat) (v : Nat) (st : List Nat × List Nat) (pend : List Nat),
      v < fuel → DfsInv s pend st → (∀ x ∈ pend, v < x) →
      DfsPost s pend v st (dfsF s fuel v st) := by
  intro fuel
  induction fuel with
  | zero =>
      intro v st pend hv
      exact absurd hv (Nat.not_lt_zero v)
  | succ fuel ih =>
      intro v st pend hv hinv hpend
      by_cases hvis : v ∈ st.1
      · have hres : dfsF s (fuel + 1) v st = st := by
          simp only [dfsF, hvis, if_true]
        rw [hres]
        have hvtopo : v ∈ st.2 := by
          rcases (hinv.1 v).mp hvis with h | h
          · exact h
          · exact absurd (hpend v h) (lt_irrefl v)
        exact ⟨hinv, hvtopo, ⟨[], by simp⟩, fun x hx => hx⟩
      · have hres : dfsF s (fuel + 1) v st =
            (((s.nd v).parents.foldl (fun acc p => dfsF s fuel p acc) (v :: st.1, st.2)).1,
             ((s.nd v).parents.foldl (fun acc p => dfsF s fuel p acc) (v :: st.1, st.2)).2
               ++ [v]) := by
          simp only [dfsF, hvis, if_false]
        rw [hres]
        have hvnotopo : v ∉ st.2 := fun h => hvis ((hinv.1 v).mpr (Or.inl h))
        -- invariant for the recursive calls, with `v` pushed on the stack
        have hinv1 : DfsInv s (v :: pend) (v :: st.1, st.2) := by
          obtain ⟨h1, h2, h3, h4, h5⟩ := hinv
          refine ⟨?_, h2, ?_, h4, h5⟩
          · intro x
            simp only [List.mem_cons]
            rw [h1 x]
            tauto
          · intro x hx
            simp only [List.mem_cons]
            push_neg
            exact ⟨fun hxv => hvis (hxv ▸ ((h1 x).mpr (Or.inl hx))),
              h3 x hx⟩
        have hps : ∀ p ∈ (s.nd v).parents, p < fuel ∧ p ≤ v ∧ ∀ x ∈ v :: pend, p < x := by
          intro p hp
          have hpv : p < v := (hw v).1 p hp
          refine ⟨lt_of_lt_of_le hpv (Nat.lt_succ_iff.mp hv), le_of_lt hpv, ?_⟩
          intro x hx
          rcases List.mem_cons.mp hx with hx | hx
          · exact hx ▸ hpv
          · exact lt_trans hpv (hpend x hx)
        have hfold := dfsFold_spec fuel (fun w stw pw hw1 hw2 hw3 => ih w stw pw hw1 hw2 hw3)
          (s.nd v).parents (v :: st.1, st.2) (v :: pend) v hps hinv1
        obtain ⟨inv2, hmem2, ⟨d2, hd2, hd2le⟩, hmono2⟩ := hfold
        set st2 := (s.nd v).parents.foldl (fun acc p => dfsF s fuel p acc) (v :: st.1, st.2)
          with hst2
        have hvnotst2 : v ∉ st2.2 := fun h => by
          have := inv2.2.2.1 v h
          exact this (List.mem_cons_self v pend)
        constructor
        · -- the invariant, with the original stack, after appending v
          obtain ⟨i1, i2, i3, i4, i5⟩ := inv2
          refine ⟨?_, ?_, ?_, ?_, ?_⟩
          · intro x
            rw [i1 x]
            simp only [List.mem_append, List.mem_singleton, List.mem_cons]
            tauto
          · rw [List.nodup_append]
            exact ⟨i2, List.nodup_singleton v, fun x hx hx2 =>
              hvnotst2 ((List.mem_singleton.mp hx2) ▸ hx)⟩
          · intro x hx
            rcases List.mem_append.mp hx with hx | hx
            · exact fun hc => i3 x hx (List.mem_cons_of_mem v hc)
            · rw [List.mem_singleton.mp hx]
              exact fun hc => absurd (hpend v hc) (lt_irrefl v)
          · intro u hu p hp
            rcases List.mem_append.mp hu with hu | hu
            · exact List.mem_append_left [v] (i4 u hu p hp)
            · rw [List.mem_singleton.mp hu] at hp
              exact List.mem_append_left [v] (hmem2 p hp)
          · rw [List.pairwise_append]
            refine ⟨i5, List.pairwise_singleton _ v, ?_⟩
            intro x hx y hy
            rw [List.mem_singleton.mp hy]
            intro hc
            exact hvnotst2 (i4 x hx v hc)
        refine ⟨List.mem_append_right st2.2 (List.mem_singleton.mpr rfl), ?_, ?_⟩
        · -- appended elements are bounded by v
          refine ⟨d2 ++ [v], ?_, ?_⟩
          · rw [hd2]
            simp [List.append_assoc]
          · intro x hx
            rcases List.mem_append.mp hx with hx | hx
            · exact hd2le x hx
            · exact le_of_eq (List.mem_singleton.mp hx)
        · intro x hx
          exact hmono2 x (List.mem_cons_of_mem v hx)

/-- Instantiation at the top-level call of `Value::backward`. -/
theorem buildTopo_spec {s : Store R} (hw : WfStore s) {r : Nat} (hr : r < s.len) :
    (buildTopo s r).Nodup ∧
    r ∈ buildTopo s r ∧
    (∀ u ∈ buildTopo s r, ∀ p ∈ (s.nd u).parents, p ∈ buildTopo s r) ∧
    (buildTopo s r).Pairwise (fun x y => y ∉ (s.nd x).parents) ∧
    (∀ x ∈ buildTopo s r, x ≤ r) := by
  have hinv0 : DfsInv s [] (([] : List Nat), ([] : List Nat)) := by
    refine ⟨by simp, List.nodup_nil, by simp, by simp, List.Pairwise.nil⟩
  have h := dfsF_spec hw s.len r ([], []) [] hr hinv0 (by simp)
  obtain ⟨⟨i1, i2, i3, i4, i5⟩, hmem, ⟨d, hd, hdle⟩, _⟩ := h
  have htopo : buildTopo s r = (dfsF s s.len r ([], [])).2 := rfl
  rw [htopo]
  refine ⟨i2, hmem, i4, i5, ?_⟩
  intro x hx
  rw [hd] at hx
  simp only [List.nil_append] at hx
  exact hdle x hx

/-! ### The reverse pass -/

theorem foldRun_len (F : FloatFns R) :
    ∀ (l : List Nat) (s : Store R),
      (l.foldl (fun acc v => runRule F acc v) s).len = s.len := by
  intro l
  induction l with
  | nil => intro s; rfl
  | cons v l ih => intro s; rw [List.foldl_cons, ih, runRule_len]

theorem foldRun_bwd (F : FloatFns R) :
    ∀ (l : List Nat) (s : Store R) (j : Nat),
      ((l.foldl (fun acc v => runRule F acc v) s).nd j).bwd = (s.nd j).bwd := by
  intro l
  induction l with
  | nil => intro s j; rfl
  | cons v l ih => intro s j; rw [List.foldl_cons, ih, runRule_bwd]

theorem foldRun_parents (F : FloatFns R) :
    ∀ (l : List Nat) (s : Store R) (j : Nat),
      ((l.foldl (fun acc v => runRule F acc v) s).nd j).parents = (s.nd j).parents := by
  intro l
  induction l with
  | nil => intro s j; rfl
  | cons v l ih => intro s j; rw [List.foldl_cons, ih, runRule_parents]

theorem foldRun_data (F : FloatFns R) :
    ∀ (l : List Nat) (s : Store R) (j : Nat),
      ((l.foldl (fun acc v => runRule F acc v) s).nd j).data = (s.nd j).data := by
  intro l
  induction l with
  | nil => intro s j; rfl
  | cons v l ih => intro s j; rw [List.foldl_cons, ih, runRule_data]

theorem foldRun_op (F : FloatFns R) :
    ∀ (l : List Nat) (s : Store R) (j : Nat),
      ((l.foldl (fun acc v => runRule F acc v) s).nd j).op = (s.nd j).op := by
  intro l
  induction l with
  | nil => intro s j; rfl
  | cons v l ih => intro s j; rw [List.foldl_cons, ih, runRule_op]

/-- A node whose identity is not among the operand handles of any closure
in the list keeps its gradient through the whole pass. -/
theorem foldRun_grad_ne (F : FloatFns R) :
    ∀ (l : List Nat) (s : Store R) (j : Nat),
      (∀ v ∈ l, j ∉ ruleTargets (s.nd v).bwd) →
      ((l.foldl (fun acc v => runRule F acc v) s).nd j).grad = (s.nd j).grad := by
  intro l
  induction l with
  | nil => intro s j _; rfl
  | cons v l ih =>
      intro s j h
      rw [List.foldl_cons, ih]
      · exact runRule_grad_ne F s (h v (List.mem_cons_self v l))
      · intro v' hv'
        rw [runRule_bwd]
        exact h v' (List.mem_cons_of_mem v hv')

theorem wf_foldRun {s : Store R} (hw : WfStore s) (F : FloatFns R) (l : List Nat) :
    WfStore (l.foldl (fun acc v => runRule F acc v) s) :=
  hw.of_fields_eq (foldRun_parents F l s) (foldRun_bwd F l s)

theorem wf_backward {s : Store R} (hw : WfStore s) (F : FloatFns R) (r : Nat) :
    WfStore (backward F s r) :=
  wf_foldRun (hw.setGrad r 1) F _

/-- Any two members of a list appear in one order or the other as a
two-element sublist. -/
theorem pair_sublist_of_mem :
    ∀ {l : List Nat} {a b : Nat}, a ∈ l → b ∈ l → a ≠ b →
      [a, b].Sublist l ∨ [b, a].Sublist l := by
  intro l
  induction l with
  | nil => intro a b ha; exact absurd ha (List.not_mem_nil a)
  | cons x l ih =>
      intro a b ha hb hne
      by_cases hax : a = x
      · subst hax
        have hb' : b ∈ l := by
          rcases List.mem_cons.mp hb with h | h
          · exact absurd h.symm hne
          · exact h
        exact Or.inl ((List.singleton_sublist.mpr hb').cons₂ a)
      · by_cases hbx : b = x
        · subst hbx
          have ha' : a ∈ l := by
            rcases List.mem_cons.mp ha with h | h
            · exact absurd h hax
            · exact h
          exact Or.inr ((List.singleton_sublist.mpr ha').cons₂ b)
        · have ha' : a ∈ l := by
            rcases List.mem_cons.mp ha with h | h
            · exact absurd h hax
            · exact h
          have hb' : b ∈ l := by
            rcases List.mem_cons.mp hb with h | h
            · exact absurd h hbx
            · exact h
          rcases ih ha' hb' hne with h | h
          · exact Or.inl (h.cons x)
          · exact Or.inr (h.cons x)

/-! ### Claim C1 -/

/-- C1: on a well-formed (acyclic, allocation-ordered) store, `backward r`
builds a duplicate-free post-order traversal of the graph reachable from
`r`, keyed by node identity: every parent of a node in the order appears in
the order strictly before the node.  The backward closures are invoked in
reverse of that order, and consequently, at the moment a node's own closure
runs, its gradient already has its final value — every contribution from
every child reachable from `r` has been received before the node
propagates to its own parents. -/
theorem c1_backward_topo_order (F : FloatFns R) (s : Store R) (r : Nat)
    (hw : WfStore s) (hr : r < s.len) :
    (buildTopo s r).Nodup ∧
    r ∈ buildTopo s r ∧
    (∀ u ∈ buildTopo s r, ∀ p ∈ (s.nd u).parents,
      p ∈ buildTopo s r ∧ [p, u].Sublist (buildTopo s r)) ∧
    backward F s r =
      (buildTopo s r).reverse.foldl (fun acc v => runRule F acc v) (setGrad s r 1) ∧
    (∀ l1 u l2, (buildTopo s r).reverse = l1 ++ u :: l2 →
      ((l1.foldl (fun acc v => runRule F acc v) (setGrad s r 1)).nd u).grad
        = ((backward F s r).nd u).grad) := by
  obtain ⟨hnd, hmem, hclosed, hpair, hle⟩ := buildTopo_spec hw hr
  refine ⟨hnd, hmem, ?_, rfl, ?_⟩
  · intro u hu p hp
    have hptopo : p ∈ buildTopo s r := hclosed u hu p hp
    have hpu : p ≠ u := fun h => absurd ((hw u).1 p hp) (h ▸ lt_irrefl u)
    refine ⟨hptopo, ?_⟩
    rcases pair_sublist_of_mem hptopo hu hpu with h | h
    · exact h
    · exfalso
      have := (List.pairwise_cons.mp (hpair.sublist h)).1 p (List.mem_singleton.mpr rfl)
      exact this hp
  · intro l1 u l2 hsplit
    have hb : backward F s r =
        (u :: l2).foldl (fun acc v => runRule F acc v)
          (l1.foldl (fun acc v => runRule F acc v) (setGrad s r 1)) := by
      rw [backward, hsplit, List.foldl_append]
    rw [hb]
    refine (foldRun_grad_ne F (u :: l2) _ u ?_).symm
    intro w hwmem
    rw [foldRun_bwd, setGrad_bwd]
    intro hut
    have hupar : u ∈ (s.nd w).parents := (hw w).2 u hut
    rcases List.mem_cons.mp hwmem with hwu | hwl2
    · have hlt : u < w := (hw w).1 u hupar
      rw [hwu] at hlt
      exact absurd hlt (lt_irrefl u)
    · have hrev : (buildTopo s r).reverse.Pairwise (fun x y => x ∉ (s.nd y).parents) := by
        rw [List.pairwise_reverse]
        exact hpair
      rw [hsplit] at hrev
      have h2 := (List.pairwise_append.mp hrev).2.1
      exact (List.pairwise_cons.mp h2).1 w hwl2 hupar

/-! ### Claim C7 -/

/-- C7: after `backward r` on a well-formed store the gradient of the root
is exactly `1`, regardless of the gradient it held before the call: the
seed overwrites the root's accumulator, and no closure run during the pass
writes to the root, since every node of the traversal has identity at most
`r` while all closure targets of such nodes are strictly below them. -/
theorem c7_root_grad_seeded (F : FloatFns R) (s : Store R) (r : Nat)
    (hw : WfStore s) (hr : r < s.len) :
    ((backward F s r).nd r).grad = 1 := by
  obtain ⟨hnd, hmem, hclosed, hpair, hle⟩ := buildTopo_spec hw hr
  rw [backward, foldRun_grad_ne, setGrad_grad_self]
  intro v hv
  rw [setGrad_bwd]
  intro hrt
  have hrpar : r ∈ (s.nd v).parents := (hw v).2 r hrt
  have hrv : r < v := (hw v).1 r hrpar
  have hvr : v ≤ r := hle v (List.mem_reverse.mp hv)
  exact absurd (lt_of_lt_of_le hrv hvr) (lt_irrefl r)

/-! ### Builders preserve well-formedness -/

theorem wf_new {s : Store R} (hw : WfStore s) (x : R) : WfStore (Value.new s x).1 :=
  hw.alloc (by intro p hp; simp at hp) (by intro t ht; simp [ruleTargets] at ht)

theorem wf_tanh {s : Store R} (hw : WfStore s) (F : FloatFns R) {a : Nat} (ha : a < s.len) :
    WfStore (Value.tanh F s a).1 :=
  hw.alloc (by intro p hp; rw [List.mem_singleton.mp hp]; exact ha)
    (by intro t ht; simpa [ruleTargets] using ht)

theorem wf_relu {s : Store R} (hw : WfStore s) {a : Nat} (ha : a < s.len) :
    WfStore (Value.relu s a).1 :=
  hw.alloc (by intro p hp; rw [List.mem_singleton.mp hp]; exact ha)
    (by intro t ht; simpa [ruleTargets] using ht)

theorem wf_pow {s : Store R} (hw : WfStore s) (F : FloatFns R) {a : Nat} (ha : a < s.len)
    (k : R) : WfStore (Value.pow F s a k).1 :=
  hw.alloc (by intro p hp; rw [List.mem_singleton.mp hp]; exact ha)
    (by intro t ht; simpa [ruleTargets] using ht)

theorem wf_exp {s : Store R} (hw : WfStore s) (F : FloatFns R) {a : Nat} (ha : a < s.len) :
    WfStore (Value.exp F s a).1 :=
  hw.alloc (by intro p hp; rw [List.mem_singleton.mp hp]; exact ha)
    (by intro t ht; simpa [ruleTargets] using ht)

theorem wf_log {s : Store R} (hw : WfStore s) (F : FloatFns R) {a : Nat} (ha : a < s.len) :
    WfStore (Value.log F s a).1 :=
  hw.alloc (by intro p hp; rw [List.mem_singleton.mp hp]; exact ha)
    (by intro t ht; simpa [ruleTargets] using ht)

theorem wf_add {s : Store R} (hw : WfStore s) {a b : Nat} (ha : a < s.len) (hb : b < s.len) :
    WfStore (Value.add s a b).1 := by
  refine hw.alloc ?_ ?_
  · intro p hp
    rcases List.mem_cons.mp hp with h | h
    · exact h ▸ ha
    · exact (List.mem_singleton.mp h) ▸ hb
  · intro t ht
    simpa [ruleTargets] using ht

theorem wf_mul {s : Store R} (hw : WfStore s) {a b : Nat} (ha : a < s.len) (hb : b < s.len) :
    WfStore (Value.mul s a b).1 := by
  refine hw.alloc ?_ ?_
  · intro p hp
    rcases List.mem_cons.mp hp with h | h
    · exact h ▸ ha
    · exact (List.mem_singleton.mp h) ▸ hb
  · intro t ht
    simpa [ruleTargets] using ht

theorem wf_neg {s : Store R} (hw : WfStore s) {a : Nat} (ha : a < s.len) :
    WfStore (Value.neg s a).1 :=
  wf_mul (wf_new hw (-1)) (lt_trans ha (Nat.lt_succ_self s.len)) (Nat.lt_succ_self s.len)

theorem wf_sub {s : Store R} (hw : WfStore s) {a b : Nat} (ha : a < s.len) (hb : b < s.len) :
    WfStore (Value.sub s a b).1 := by
  refine wf_add (wf_neg hw hb) ?_ ?_
  · show a < s.len + 2
    omega
  · show s.len + 1 < s.len + 2
    omega

theorem wf_div {s : Store R} (hw : WfStore s) (F : FloatFns R) {a b : Nat}
    (ha : a < s.len) (hb : b < s.len) : WfStore (Value.div F s a b).1 := by
  refine wf_mul (wf_pow hw F hb (-1)) ?_ ?_
  · show a < s.len + 1
    omega
  · show s.len < s.len + 1
    omega

/-! ### Concrete instantiation used for witnesses

`FQ` interprets the injected `f64` primitives over `ℚ`; the claims settled
on concrete stores below do not depend on the values these functions take. -/

def FQ : FloatFns ℚ :=
  ⟨fun x => x, fun x => x, fun x => x, fun _ _ => 0⟩

/-- Witness store: leaves `2` and `3` and their product (ids 0, 1, 2). -/
def wLeafA : Store ℚ × Nat := Value.new emptyStore 2

def wLeafB : Store ℚ × Nat := Value.new wLeafA.1 3

def wMul : Store ℚ × Nat := Value.mul wLeafB.1 wLeafA.2 wLeafB.2

theorem wf_wMul : WfStore wMul.1 :=
  wf_mul (wf_new (wf_new WfStore.emptyStore 2) 3) (by norm_num [wLeafB, wLeafA, Value.new, alloc, emptyStore]) (by norm_num [wLeafB, wLeafA, Value.new, alloc, emptyStore])

theorem wMul_len : wMul.1.len = 3 := rfl

theorem wMul_snd : wMul.2 = 2 := rfl

/-- Witness for C1, instantiating the theorem on the concrete
two-leaves-and-a-product store at root 2. -/
theorem c1_backward_topo_order_witness :
    (buildTopo (wMul.1 : Store ℚ) 2).Nodup ∧ 2 ∈ buildTopo (wMul.1 : Store ℚ) 2 :=
  ⟨(c1_backward_topo_order FQ wMul.1 2 wf_wMul (by decide)).1,
   (c1_backward_topo_order FQ wMul.1 2 wf_wMul (by decide)).2.1⟩

/-- Witness for C7 on the same store, whose root gradient is seeded to 1. -/
theorem c7_root_grad_seeded_witness :
    ((backward FQ wMul.1 2).nd 2).grad = 1 :=
  c7_root_grad_seeded FQ wMul.1 2 wf_wMul (by decide)

/-! ### Gradient deltas of a single closure invocation -/

theorem addGrad_delta (s : Store R) (a j : Nat) (c : R) :
    ((addGrad s a c).nd j).grad - (s.nd j).grad = if j = a then c else 0 := by
  by_cases h : j = a
  · subst h
    rw [addGrad_grad_self]
    simp
  · rw [addGrad_nd_ne s c h]
    simp [h]

theorem addGrad2_delta (s : Store R) (a b j : Nat) (c1 c2 : R) :
    ((addGrad (addGrad s a c1) b c2).nd j).grad - (s.nd j).grad
      = (if j = a then c1 else 0) + (if j = b then c2 else 0) := by
  have h1 := addGrad_delta s a j c1
  have h2 := addGrad_delta (addGrad s a c1) b j c2
  have : ((addGrad (addGrad s a c1) b c2).nd j).grad - (s.nd j).grad
      = (((addGrad (addGrad s a c1) b c2).nd j).grad - ((addGrad s a c1).nd j).grad)
        + (((addGrad s a c1).nd j).grad - (s.nd j).grad) := by ring
  rw [this, h1, h2]
  ring

/-- The gradient increments applied by one closure invocation depend only
on the closure itself, the node's own gradient, and (for `Mul` only) the
current values of the operand nodes. -/
theorem runRule_delta_congr (F : FloatFns R) {s1 s2 : Store R} (u : Nat)
    (hb : (s2.nd u).bwd = (s1.nd u).bwd)
    (hg : (s2.nd u).grad = (s1.nd u).grad)
    (hd : ∀ j, (s2.nd j).data = (s1.nd j).data) :
    ∀ j, ((runRule F s2 u).nd j).grad - (s2.nd j).grad
        = ((runRule F s1 u).nd j).grad - (s1.nd j).grad := by
  intro j
  unfold runRule
  rw [hb, hg]
  cases hr : (s1.nd u).bwd with
  | none => simp
  | some r =>
      cases r with
      | tanhR a t => rw [addGrad_delta, addGrad_delta]
      | reluR a x => rw [addGrad_delta, addGrad_delta]
      | powR a x k => rw [addGrad_delta, addGrad_delta]
      | expR a d => rw [addGrad_delta, addGrad_delta]
      | logR a x => rw [addGrad_delta, addGrad_delta]
      | addR a b => rw [addGrad2_delta, addGrad2_delta]
      | mulR a b => rw [addGrad2_delta, addGrad2_delta, hd a, hd b]

/-! ### Claim C6: no automatic gradient reset -/

/-- Two stores that agree on everything except the gradient accumulator of
node `w`, which differs by `δ`, and agree on gradients of all nodes above
`w` (in allocation order). -/
def SimExcept (w : Nat) (δ : R) (s1 s2 : Store R) : Prop :=
  (∀ j, (s2.nd j).data = (s1.nd j).data) ∧
  (∀ j, (s2.nd j).parents = (s1.nd j).parents) ∧
  (∀ j, (s2.nd j).bwd = (s1.nd j).bwd) ∧
  (∀ j, w < j → (s2.nd j).grad = (s1.nd j).grad) ∧
  (s2.nd w).grad = (s1.nd w).grad + δ

theorem runRule_simExcept (F : FloatFns R) {s1 s2 : Store R} {w : Nat} {δ : R}
    (hw1 : WfStore s1) (hsim : SimExcept w δ s1 s2) (u : Nat) :
    SimExcept w δ (runRule F s1 u) (runRule F s2 u) := by
  obtain ⟨hd, hp, hbw, hgt, hgw⟩ := hsim
  refine ⟨?_, ?_, ?_, ?_, ?_⟩
  · intro j
    rw [runRule_data, runRule_data, hd j]
  · intro j
    rw [runRule_parents, runRule_parents, hp j]
  · intro j
    rw [runRule_bwd, runRule_bwd, hbw j]
  · intro j hj
    by_cases hu : w < u
    · have hδ := runRule_delta_congr F u (hbw u) (hgt u hu) hd j
      have hj2 := hgt j hj
      linarith
    · push_neg at hu
      have hnt : j ∉ ruleTargets (s1.nd u).bwd := by
        intro ht
        have hjp : j ∈ (s1.nd u).parents := (hw1 u).2 j ht
        have hju : j < u := (hw1 u).1 j hjp
        omega
      have hnt2 : j ∉ ruleTargets (s2.nd u).bwd := by
        rw [hbw u]
        exact hnt
      rw [runRule_grad_ne F s1 hnt, runRule_grad_ne F s2 hnt2]
      exact hgt j hj
  · by_cases hu : w < u
    · have hδ := runRule_delta_congr F u (hbw u) (hgt u hu) hd w
      linarith
    · push_neg at hu
      have hnt : w ∉ ruleTargets (s1.nd u).bwd := by
        intro ht
        have hwp : w ∈ (s1.nd u).parents := (hw1 u).2 w ht
        have hwu : w < u := (hw1 u).1 w hwp
        omega
      have hnt2 : w ∉ ruleTargets (s2.nd u).bwd := by
        rw [hbw u]
        exact hnt
      rw [runRule_grad_ne F s1 hnt, runRule_grad_ne F s2 hnt2]
      exact hgw

theorem foldRun_simExcept (F : FloatFns R) {w : Nat} {δ : R} :
    ∀ (l : List Nat) {s1 s2 : Store R}, WfStore s1 → SimExcept w δ s1 s2 →
      SimExcept w δ (l.foldl (fun acc v => runRule F acc v) s1)
        (l.foldl (fun acc v => runRule F acc v) s2) := by
  intro l
  induction l with
  | nil => intro s1 s2 _ hsim; exact hsim
  | cons v l ih =>
      intro s1 s2 hw1 hsim
      rw [List.foldl_cons, List.foldl_cons]
      exact ih (hw1.runRule F v) (runRule_simExcept F hw1 hsim v)

/-- The order construction reads only the `parents` fields. -/
theorem dfsF_congr {s1 s2 : Store R} (h : ∀ i, (s2.nd i).parents = (s1.nd i).parents) :
    ∀ (fuel v : Nat) (st : List Nat × List Nat), dfsF s2 fuel v st = dfsF s1 fuel v st := by
  intro fuel
  induction fuel with
  | zero => intro v st; rfl
  | succ n ih =>
      intro v st
      simp only [dfsF]
      by_cases hv : v ∈ st.1
      · simp [hv]
      · simp only [hv, if_false]
        rw [h v]
        have hfold : ∀ (ps : List Nat) (st0 : List Nat × List Nat),
            ps.foldl (fun acc p => dfsF s2 n p acc) st0
              = ps.foldl (fun acc p => dfsF s1 n p acc) st0 := by
          intro ps
          induction ps with
          | nil => intro st0; rfl
          | cons q qs ihq => intro st0; rw [List.foldl_cons, List.foldl_cons, ih q st0, ihq]
        rw [hfold]

theorem buildTopo_congr {s1 s2 : Store R} (hlen : s2.len = s1.len)
    (h : ∀ i, (s2.nd i).parents = (s1.nd i).parents) (r : Nat) :
    buildTopo s2 r = buildTopo s1 r := by
  unfold buildTopo
  rw [hlen, dfsF_congr h]

/-- C6: `backward` performs no automatic gradient reset.  For any node `w`
other than the root being differentiated, the amount a backward pass adds
to the gradient accumulator of `w` is independent of the gradient `w`
already held: starting the same pass from a store identical except for
`w`'s accumulated gradient yields the same increment, so gradients left by
a prior pass persist and later passes accumulate on top of them. -/
theorem c6_no_auto_reset (F : FloatFns R) (s1 s2 : Store R) (r w : Nat)
    (hw1 : WfStore s1) (hwr : w ≠ r)
    (hlen : s2.len = s1.len)
    (hother : ∀ j, j ≠ w → s2.nd j = s1.nd j)
    (hdata : (s2.nd w).data = (s1.nd w).data)
    (hpar : (s2.nd w).parents = (s1.nd w).parents)
    (hbwd : (s2.nd w).bwd = (s1.nd w).bwd) :
    ((backward F s2 r).nd w).grad - (s2.nd w).grad
      = ((backward F s1 r).nd w).grad - (s1.nd w).grad := by
  set δ := (s2.nd w).grad - (s1.nd w).grad with hδ
  have hdall : ∀ j, (s2.nd j).data = (s1.nd j).data := by
    intro j
    by_cases hj : j = w
    · rw [hj]; exact hdata
    · rw [hother j hj]
  have hpall : ∀ j, (s2.nd j).parents = (s1.nd j).parents := by
    intro j
    by_cases hj : j = w
    · rw [hj]; exact hpar
    · rw [hother j hj]
  have hball : ∀ j, (s2.nd j).bwd = (s1.nd j).bwd := by
    intro j
    by_cases hj : j = w
    · rw [hj]; exact hbwd
    · rw [hother j hj]
  have hseed : SimExcept w δ (setGrad s1 r 1) (setGrad s2 r 1) := by
    refine ⟨?_, ?_, ?_, ?_, ?_⟩
    · intro j
      rw [setGrad_data, setGrad_data, hdall j]
    · intro j
      rw [setGrad_parents, setGrad_parents, hpall j]
    · intro j
      rw [setGrad_bwd, setGrad_bwd, hball j]
    · intro j hj
      by_cases hjr : j = r
      · rw [hjr, setGrad_grad_self, setGrad_grad_self]
      · rw [setGrad_nd_ne s2 1 hjr, setGrad_nd_ne s1 1 hjr]
        have : j ≠ w := by omega
        rw [hother j this]
    · rw [setGrad_nd_ne s2 1 hwr, setGrad_nd_ne s1 1 hwr, hδ]
      ring
  have htopo : buildTopo s2 r = buildTopo s1 r := buildTopo_congr hlen hpall r
  have hfin := foldRun_simExcept F ((buildTopo s1 r).reverse) (hw1.setGrad r 1) hseed
  have hb2 : backward F s2 r =
      ((buildTopo s1 r).reverse).foldl (fun acc v => runRule F acc v) (setGrad s2 r 1) := by
    rw [backward, htopo]
  rw [hb2, backward]
  have := hfin.2.2.2.2
  linarith

/-- Witness for C6: the product store with leaf 0 given a stale gradient 5;
the second pass adds the same increment as it does from gradient 0. -/
theorem c6_no_auto_reset_witness :
    ((backward FQ (setGrad wMul.1 0 5) 2).nd 0).grad - ((setGrad wMul.1 0 5).nd 0).grad
      = ((backward FQ wMul.1 2).nd 0).grad - ((wMul.1 : Store ℚ).nd 0).grad :=
  c6_no_auto_reset FQ wMul.1 (setGrad wMul.1 0 5) 2 0 wf_wMul (by decide) rfl
    (fun j hj => setGrad_nd_ne wMul.1 5 hj)
    (setGrad_data wMul.1 0 5 0) (setGrad_parents wMul.1 0 5 0) (setGrad_bwd wMul.1 0 5 0)

/-! ### Characterization of each closure and of each builder node -/

theorem runRule_tanhR (F : FloatFns R) (s : Store R) {i a : Nat} {t : R}
    (h : (s.nd i).bwd = some (BackRule.tanhR a t)) :
    runRule F s i = addGrad s a ((1 - t * t) * (s.nd i).grad) := by
  unfold runRule
  rw [h]

theorem runRule_reluR (F : FloatFns R) (s : Store R) {i a : Nat} {x : R}
    (h : (s.nd i).bwd = some (BackRule.reluR a x)) :
    runRule F s i = addGrad s a ((if x > 0 then 1 else 0) * (s.nd i).grad) := by
  unfold runRule
  rw [h]

theorem runRule_powR (F : FloatFns R) (s : Store R) {i a : Nat} {x k : R}
    (h : (s.nd i).bwd = some (BackRule.powR a x k)) :
    runRule F s i = addGrad s a ((k * F.powf x (k - 1)) * (s.nd i).grad) := by
  unfold runRule
  rw [h]

theorem runRule_expR (F : FloatFns R) (s : Store R) {i a : Nat} {d : R}
    (h : (s.nd i).bwd = some (BackRule.expR a d)) :
    runRule F s i = addGrad s a (d * (s.nd i).grad) := by
  unfold runRule
  rw [h]

theorem runRule_logR (F : FloatFns R) (s : Store R) {i a : Nat} {x : R}
    (h : (s.nd i).bwd = some (BackRule.logR a x)) :
    runRule F s i = addGrad s a ((1 / x) * (s.nd i).grad) := by
  unfold runRule
  rw [h]

theorem runRule_addR (F : FloatFns R) (s : Store R) {i a b : Nat}
    (h : (s.nd i).bwd = some (BackRule.addR a b)) :
    runRule F s i = addGrad (addGrad s a ((s.nd i).grad)) b ((s.nd i).grad) := by
  unfold runRule
  rw [h]

theorem runRule_mulR (F : FloatFns R) (s : Store R) {i a b : Nat}
    (h : (s.nd i).bwd = some (BackRule.mulR a b)) :
    runRule F s i =
      addGrad (addGrad s a ((s.nd b).data * (s.nd i).grad)) b
        ((s.nd a).data * (s.nd i).grad) := by
  unfold runRule
  rw [h]

theorem tanh_nd_self (F : FloatFns R) (s : Store R) (a : Nat) :
    (Value.tanh F s a).1.nd s.len =
      ⟨F.tanh (s.nd a).data, 0, [a], some Ops.tanh,
        some (BackRule.tanhR a (F.tanh (s.nd a).data))⟩ :=
  alloc_nd_self s _

theorem tanh_nd_ne (F : FloatFns R) (s : Store R) (a : Nat) {j : Nat} (h : j ≠ s.len) :
    (Value.tanh F s a).1.nd j = s.nd j :=
  alloc_nd_ne s _ h

theorem relu_nd_self (s : Store R) (a : Nat) :
    (Value.relu s a).1.nd s.len =
      ⟨if (s.nd a).data < 0 then 0 else (s.nd a).data, 0, [a], some Ops.relu,
        some (BackRule.reluR a (s.nd a).data)⟩ :=
  alloc_nd_self s _

theorem relu_nd_ne (s : Store R) (a : Nat) {j : Nat} (h : j ≠ s.len) :
    (Value.relu s a).1.nd j = s.nd j :=
  alloc_nd_ne s _ h

theorem pow_nd_self (F : FloatFns R) (s : Store R) (a : Nat) (k : R) :
    (Value.pow F s a k).1.nd s.len =
      ⟨F.powf (s.nd a).data k, 0, [a], some (Ops.pow k),
        some (BackRule.powR a ((s.nd a).data) k)⟩ :=
  alloc_nd_self s _

theorem pow_nd_ne (F : FloatFns R) (s : Store R) (a : Nat) (k : R) {j : Nat} (h : j ≠ s.len) :
    (Value.pow F s a k).1.nd j = s.nd j :=
  alloc_nd_ne s _ h

theorem exp_nd_self (F : FloatFns R) (s : Store R) (a : Nat) :
    (Value.exp F s a).1.nd s.len =
      ⟨F.exp (s.nd a).data, 0, [a], some Ops.exp,
        some (BackRule.expR a (F.exp (s.nd a).data))⟩ :=
  alloc_nd_self s _

theorem exp_nd_ne (F : FloatFns R) (s : Store R) (a : Nat) {j : Nat} (h : j ≠ s.len) :
    (Value.exp F s a).1.nd j = s.nd j :=
  alloc_nd_ne s _ h

theorem log_nd_self (F : FloatFns R) (s : Store R) (a : Nat) :
    (Value.log F s a).1.nd s.len =
      ⟨F.log (s.nd a).data, 0, [a], some Ops.log,
        some (BackRule.logR a ((s.nd a).data))⟩ :=
  alloc_nd_self s _

theorem log_nd_ne (F : FloatFns R) (s : Store R) (a : Nat) {j : Nat} (h : j ≠ s.len) :
    (Value.log F s a).1.nd j = s.nd j :=
  alloc_nd_ne s _ h

theorem add_nd_self (s : Store R) (a b : Nat) :
    (Value.add s a b).1.nd s.len =
      ⟨(s.nd a).data + (s.nd b).data, 0, [a, b], some Ops.add,
        some (BackRule.addR a b)⟩ :=
  alloc_nd_self s _

theorem add_nd_ne (s : Store R) (a b : Nat) {j : Nat} (h : j ≠ s.len) :
    (Value.add s a b).1.nd j = s.nd j :=
  alloc_nd_ne s _ h

theorem mul_nd_self (s : Store R) (a b : Nat) :
    (Value.mul s a b).1.nd s.len =
      ⟨(s.nd a).data * (s.nd b).data, 0, [a, b], some Ops.mul,
        some (BackRule.mulR a b)⟩ :=
  alloc_nd_self s _

theorem mul_nd_ne (s : Store R) (a b : Nat) {j : Nat} (h : j ≠ s.len) :
    (Value.mul s a b).1.nd j = s.nd j :=
  alloc_nd_ne s _ h

theorem new_nd_self (s : Store R) (x : R) :
    (Value.new s x).1.nd s.len = ⟨x, 0, [], none, none⟩ :=
  alloc_nd_self s _

theorem new_nd_ne (s : Store R) (x : R) {j : Nat} (h : j ≠ s.len) :
    (Value.new s x).1.nd j = s.nd j :=
  alloc_nd_ne s _ h

/-! ### Claim C3 -/

/-- C3: each constructor attaches a backward rule that adds (never
overwrites) `local_derivative * out_grad` into each parent's gradient
accumulator, on top of whatever gradient the parent already holds.
Constructing a node over operands below `s.len`, giving the fresh node
gradient `g`, and invoking its closure yields exactly the table of local
derivatives: Add → `1` and `1`; Mul → `right.value` and `left.value`;
Pow(k) → `k·x^(k−1)`; Tanh → `1 − tanh(x)²`; Exp → `exp(x)`;
Log → `1/x`; Relu → `1` if `x > 0` else `0`, with `x` the operand value
captured at construction. -/
theorem c3_local_derivatives (F : FloatFns R) (s : Store R) (a b : Nat) (g k : R)
    (ha : a < s.len) (hb : b < s.len) (hab : a ≠ b) :
    (((runRule F (setGrad (Value.tanh F s a).1 s.len g) s.len).nd a).grad
      = (s.nd a).grad + (1 - F.tanh (s.nd a).data * F.tanh (s.nd a).data) * g) ∧
    (((runRule F (setGrad (Value.relu s a).1 s.len g) s.len).nd a).grad
      = (s.nd a).grad + (if (s.nd a).data > 0 then 1 else 0) * g) ∧
    (((runRule F (setGrad (Value.pow F s a k).1 s.len g) s.len).nd a).grad
      = (s.nd a).grad + (k * F.powf (s.nd a).data (k - 1)) * g) ∧
    (((runRule F (setGrad (Value.exp F s a).1 s.len g) s.len).nd a).grad
      = (s.nd a).grad + F.exp (s.nd a).data * g) ∧
    (((runRule F (setGrad (Value.log F s a).1 s.len g) s.len).nd a).grad
      = (s.nd a).grad + (1 / (s.nd a).data) * g) ∧
    ((((runRule F (setGrad (Value.add s a b).1 s.len g) s.len).nd a).grad
      = (s.nd a).grad + g) ∧
     (((runRule F (setGrad (Value.add s a b).1 s.len g) s.len).nd b).grad
      = (s.nd b).grad + g)) ∧
    ((((runRule F (setGrad (Value.mul s a b).1 s.len g) s.len).nd a).grad
      = (s.nd a).grad + (s.nd b).data * g) ∧
     (((runRule F (setGrad (Value.mul s a b).1 s.len g) s.len).nd b).grad
      = (s.nd b).grad + (s.nd a).data * g)) := by
  have hane : a ≠ s.len := Nat.ne_of_lt ha
  have hbne : b ≠ s.len := Nat.ne_of_lt hb
  refine ⟨?_, ?_, ?_, ?_, ?_, ⟨?_, ?_⟩, ⟨?_, ?_⟩⟩
  · have hrule : ((setGrad (Value.tanh F s a).1 s.len g).nd s.len).bwd
        = some (BackRule.tanhR a (F.tanh (s.nd a).data)) := by
      rw [setGrad_bwd, tanh_nd_self]
    rw [runRule_tanhR F _ hrule, addGrad_grad_self, setGrad_grad_self,
      setGrad_nd_ne _ g hane, tanh_nd_ne F s a hane]
  · have hrule : ((setGrad (Value.relu s a).1 s.len g).nd s.len).bwd
        = some (BackRule.reluR a ((s.nd a).data)) := by
      rw [setGrad_bwd, relu_nd_self]
    rw [runRule_reluR F _ hrule, addGrad_grad_self, setGrad_grad_self,
      setGrad_nd_ne _ g hane, relu_nd_ne s a hane]
  · have hrule : ((setGrad (Value.pow F s a k).1 s.len g).nd s.len).bwd
        = some (BackRule.powR a ((s.nd a).data) k) := by
      rw [setGrad_bwd, pow_nd_self]
    rw [runRule_powR F _ hrule, addGrad_grad_self, setGrad_grad_self,
      setGrad_nd_ne _ g hane, pow_nd_ne F s a k hane]
  · have hrule : ((setGrad (Value.exp F s a).1 s.len g).nd s.len).bwd
        = some (BackRule.expR a (F.exp (s.nd a).data)) := by
      rw [setGrad_bwd, exp_nd_self]
    rw [runRule_expR F _ hrule, addGrad_grad_self, setGrad_grad_self,
      setGrad_nd_ne _ g hane, exp_nd_ne F s a hane]
  · have hrule : ((setGrad (Value.log F s a).1 s.len g).nd s.len).bwd
        = some (BackRule.logR a ((s.nd a).data)) := by
      rw [setGrad_bwd, log_nd_self]
    rw [runRule_logR F _ hrule, addGrad_grad_self, setGrad_grad_self,
      setGrad_nd_ne _ g hane, log_nd_ne F s a hane]
  · have hrule : ((setGrad (Value.add s a b).1 s.len g).nd s.len).bwd
        = some (BackRule.addR a b) := by
      rw [setGrad_bwd, add_nd_self]
    rw [runRule_addR F _ hrule, addGrad_nd_ne _ _ hab, addGrad_grad_self,
      setGrad_grad_self, setGrad_nd_ne _ g hane, add_nd_ne s a b hane]
  · have hrule : ((setGrad (Value.add s a b).1 s.len g).nd s.len).bwd
        = some (BackRule.addR a b) := by
      rw [setGrad_bwd, add_nd_self]
    rw [runRule_addR F _ hrule, addGrad_grad_self, addGrad_nd_ne _ _ (Ne.symm hab),
      setGrad_grad_self, setGrad_nd_ne _ g hbne, add_nd_ne s a b hbne]
  · have hrule : ((setGrad (Value.mul s a b).1 s.len g).nd s.len).bwd
        = some (BackRule.mulR a b) := by
      rw [setGrad_bwd, mul_nd_self]
    rw [runRule_mulR F _ hrule, addGrad_nd_ne _ _ hab, addGrad_grad_self,
      setGrad_grad_self, setGrad_nd_ne _ g hane, mul_nd_ne s a b hane,
      setGrad_data, mul_nd_ne s a b hbne]
  · have hrule : ((setGrad (Value.mul s a b).1 s.len g).nd s.len).bwd
        = some (BackRule.mulR a b) := by
      rw [setGrad_bwd, mul_nd_self]
    rw [runRule_mulR F _ hrule, addGrad_grad_self, addGrad_nd_ne _ _ (Ne.symm hab),
      setGrad_grad_self, setGrad_nd_ne _ g hbne, mul_nd_ne s a b hbne,
      setGrad_data, mul_nd_ne s a b hane]

/-- Witness for C3: the Mul rule on two concrete leaves adds
`right.value * out_grad` to the left parent. -/
theorem c3_local_derivatives_witness :
    ((runRule FQ (setGrad (Value.mul wLeafB.1 0 1).1 2 1) 2).nd 0).grad
      = ((wLeafB.1 : Store ℚ).nd 0).grad + ((wLeafB.1 : Store ℚ).nd 1).data * 1 :=
  (c3_local_derivatives FQ wLeafB.1 0 1 1 0 (by decide) (by decide)
    (by decide)).2.2.2.2.2.2.1

/-! ### Claim C2 -/

/-- Counterexample to C2 as stated: leaves `2` and `3` and their product.
A first `backward` gives the leaves gradients `3` and `2`; an `SGD::step`
with learning rate `1` then mutates the leaf values in place.  A second
`backward` adds `1` (the mutated right value) to leaf 0's gradient instead
of `3` (the construction-time right value), so the final gradients differ
(`4` versus `6`): mutating a parent's value between construction and a
later pass does change the contribution of the `Mul` backward rule. -/
theorem c2_counterexample :
    ((backward FQ (SGD.step ⟨[0, 1], 1⟩ (backward FQ wMul.1 2)) 2).nd 0).grad
      ≠ ((backward FQ (backward FQ wMul.1 2) 2).nd 0).grad := by
  norm_num [SGD.step, setData, backward, buildTopo, dfsF, runRule, setGrad, addGrad,
    wMul, wLeafB, wLeafA, Value.new, Value.mul, alloc, emptyStore, Function.update, FQ]

/-- C2 amended: for every operation other than Mul the claim holds — the
gradient increments a backward rule applies are a function of the data
captured in the closure at construction time and of the node's own
gradient, and are unchanged by any mutation of node values (in particular
by `SGD::step`).  The Mul rule, however, reads both operands' current
values at backward time, so for Mul the contribution tracks the mutated
values. -/
theorem c2_amended_capture (F : FloatFns R) (s1 s2 s : Store R) (u i a b : Nat)
    (hb : (s2.nd u).bwd = (s1.nd u).bwd)
    (hg : (s2.nd u).grad = (s1.nd u).grad)
    (hnm : ∀ a0 b0, (s1.nd u).bwd ≠ some (BackRule.mulR a0 b0))
    (hmul : (s.nd i).bwd = some (BackRule.mulR a b)) (hab : a ≠ b) :
    (∀ j, ((runRule F s2 u).nd j).grad - (s2.nd j).grad
        = ((runRule F s1 u).nd j).grad - (s1.nd j).grad) ∧
    (((runRule F s i).nd a).grad = (s.nd a).grad + (s.nd b).data * (s.nd i).grad ∧
     ((runRule F s i).nd b).grad = (s.nd b).grad + (s.nd a).data * (s.nd i).grad) := by
  refine ⟨?_, ?_, ?_⟩
  · intro j
    unfold runRule
    rw [hb, hg]
    cases hr : (s1.nd u).bwd with
    | none => simp
    | some r =>
        cases r with
        | tanhR a0 t => rw [addGrad_delta, addGrad_delta]
        | reluR a0 x => rw [addGrad_delta, addGrad_delta]
        | powR a0 x k => rw [addGrad_delta, addGrad_delta]
        | expR a0 d => rw [addGrad_delta, addGrad_delta]
        | logR a0 x => rw [addGrad_delta, addGrad_delta]
        | addR a0 b0 => rw [addGrad2_delta, addGrad2_delta]
        | mulR a0 b0 => exact absurd hr (hnm a0 b0)
  · rw [runRule_mulR F s hmul, addGrad_nd_ne _ _ hab, addGrad_grad_self]
  · rw [runRule_mulR F s hmul, addGrad_grad_self, addGrad_nd_ne _ _ (Ne.symm hab)]

/-- Witness stores for the C2 amendment: a tanh node over a leaf, with and
without a value mutation of the leaf, and a seeded product store. -/
def wTanh : Store ℚ × Nat := Value.tanh FQ wLeafA.1 0

def wTanhG : Store ℚ := setGrad wTanh.1 1 1

def wTanhM : Store ℚ := setData wTanhG 0 99

def wMulG : Store ℚ := setGrad wMul.1 2 1

/-- Witness for the C2 amendment: mutating the leaf value does not change
the tanh rule's increment, while the Mul rule reads current values. -/
theorem c2_amended_capture_witness :
    (((runRule FQ wTanhM 1).nd 0).grad - (wTanhM.nd 0).grad
      = ((runRule FQ wTanhG 1).nd 0).grad - (wTanhG.nd 0).grad) ∧
    (((runRule FQ wMulG 2).nd 0).grad = (wMulG.nd 0).grad + (wMulG.nd 1).data * (wMulG.nd 2).grad ∧
     ((runRule FQ wMulG 2).nd 1).grad = (wMulG.nd 1).grad + (wMulG.nd 0).data * (wMulG.nd 2).grad) := by
  have happ := c2_amended_capture FQ wTanhG wTanhM wMulG 1 2 0 1
    (setData_bwd wTanhG 0 99 1) (setData_grad wTanhG 0 99 1)
    (by
      intro a0 b0 hcon
      norm_num [wTanhG, wTanh, wLeafA, Value.tanh, Value.new, alloc, setGrad,
        emptyStore, Function.update, FQ] at hcon
      exact BackRule.noConfusion hcon)
    (by
      norm_num [wMulG, wMul, wLeafB, wLeafA, Value.mul, Value.new, alloc, setGrad,
        emptyStore, Function.update])
    (by decide)
  exact ⟨happ.1 0, happ.2⟩

/-! ### Claim C4 -/

/-- C4: diamond dependency.  For a fresh leaf of any value (gradient 0),
building `d = add(a, a)` with the same node as both operands and calling
`backward d` accumulates gradient exactly `2` into the leaf: each
occurrence contributes `1` independently. -/
theorem c4_diamond_add_self (F : FloatFns R) (v : R) :
    ((backward F
        (Value.add (Value.new (emptyStore : Store R) v).1
          (Value.new (emptyStore : Store R) v).2 (Value.new (emptyStore : Store R) v).2).1
        (Value.add (Value.new (emptyStore : Store R) v).1
          (Value.new (emptyStore : Store R) v).2 (Value.new (emptyStore : Store R) v).2).2).nd
      (Value.new (emptyStore : Store R) v).2).grad = 2 := by
  norm_num [backward, buildTopo, dfsF, runRule, setGrad, addGrad, Value.new, Value.add,
    alloc, emptyStore, Function.update]

/-! ### Claim C5 -/

/-- Counterexample to C5 as stated: on the store holding leaves `2` (id 0)
and `3` (id 1), `sub(0, 1)` creates its result as `0 + (-1)`, whose parents
are `[0, 3]` — the left operand and the freshly built negation node — not
`[0, 1]`. -/
theorem c5_counterexample :
    ((Value.sub (wLeafB.1 : Store ℚ) 0 1).1.nd
      (Value.sub (wLeafB.1 : Store ℚ) 0 1).2).parents ≠ [0, 1] := by
  norm_num [Value.sub, Value.neg, Value.new, Value.add, Value.mul, alloc,
    wLeafB, wLeafA, emptyStore, Function.update]

/-- C5 amended: `add(a,b)` and `mul(a,b)` create a node with parents
exactly `[a, b]`; `negate(a)` is `a * (-1)` (a fresh `-1` leaf, result
parents `[a, leaf]`); `sub(a,b)` is `a + (-b)`, so its result node's
parents are `[a, neg-node]` with the negation chain underneath, not
`[a, b]`; `div(a,b)` is `a * b^(-1)`, with parents `[a, pow-node]`.  The
definitional forms produce the expected values, and running the composite
backward rules contributes `g` and `-g` to `a` and `b` for sub, and
`b^(-1)·g` and `-b^(-2)·(a·g)` for div, as a direct rule would. -/
theorem c5_amended_builders (F : FloatFns R) (s : Store R) (a b : Nat) (g : R)
    (ha : a < s.len) (hb : b < s.len) (hab : a ≠ b) :
    (((Value.add s a b).1.nd s.len).parents = [a, b] ∧
     ((Value.add s a b).1.nd s.len).data = (s.nd a).data + (s.nd b).data) ∧
    (((Value.mul s a b).1.nd s.len).parents = [a, b] ∧
     ((Value.mul s a b).1.nd s.len).data = (s.nd a).data * (s.nd b).data) ∧
    ((Value.neg s a).2 = s.len + 1 ∧
     ((Value.neg s a).1.nd (s.len + 1)).parents = [a, s.len] ∧
     ((Value.neg s a).1.nd s.len).data = -1 ∧
     ((Value.neg s a).1.nd (s.len + 1)).data = (s.nd a).data * (-1)) ∧
    ((Value.sub s a b).2 = s.len + 2 ∧
     ((Value.sub s a b).1.nd (s.len + 2)).parents = [a, s.len + 1] ∧
     ((Value.sub s a b).1.nd (s.len + 1)).parents = [b, s.len] ∧
     ((Value.sub s a b).1.nd s.len).data = -1 ∧
     ((Value.sub s a b).1.nd (s.len + 2)).data = (s.nd a).data + (s.nd b).data * (-1)) ∧
    ((Value.div F s a b).2 = s.len + 1 ∧
     ((Value.div F s a b).1.nd (s.len + 1)).parents = [a, s.len] ∧
     ((Value.div F s a b).1.nd s.len).parents = [b] ∧
     ((Value.div F s a b).1.nd s.len).op = some (Ops.pow (-1)) ∧
     ((Value.div F s a b).1.nd (s.len + 1)).data
        = (s.nd a).data * F.powf (s.nd b).data (-1)) ∧
    (((runRule F (runRule F (setGrad (Value.sub s a b).1 (s.len + 2) g) (s.len + 2))
        (s.len + 1)).nd a).grad = (s.nd a).grad + g ∧
     ((runRule F (runRule F (setGrad (Value.sub s a b).1 (s.len + 2) g) (s.len + 2))
        (s.len + 1)).nd b).grad = (s.nd b).grad + (-1) * g) ∧
    (((runRule F (runRule F (setGrad (Value.div F s a b).1 (s.len + 1) g) (s.len + 1))
        s.len).nd a).grad = (s.nd a).grad + F.powf (s.nd b).data (-1) * g ∧
     ((runRule F (runRule F (setGrad (Value.div F s a b).1 (s.len + 1) g) (s.len + 1))
        s.len).nd b).grad
        = (s.nd b).grad + (-1) * F.powf (s.nd b).data (-2) * ((s.nd a).data * g)) := by
  have hane : a ≠ s.len := Nat.ne_of_lt ha
  have hbne : b ≠ s.len := Nat.ne_of_lt hb
  have hane1 : a ≠ s.len + 1 := by omega
  have hbne1 : b ≠ s.len + 1 := by omega
  have hane2 : a ≠ s.len + 2 := by omega
  have hbne2 : b ≠ s.len + 2 := by omega
  have hnea : s.len ≠ a := by omega
  have hneb : s.len ≠ b := by omega
  have hne1a : s.len + 1 ≠ a := by omega
  have hne1b : s.len + 1 ≠ b := by omega
  have hne2a : s.len + 2 ≠ a := by omega
  have hne2b : s.len + 2 ≠ b := by omega
  have h10 : ¬(s.len + 1 = s.len) := by omega
  have h01 : ¬(s.len = s.len + 1) := by omega
  have h20 : ¬(s.len + 2 = s.len) := by omega
  have h02 : ¬(s.len = s.len + 2) := by omega
  have h21 : ¬(s.len + 2 = s.len + 1) := by omega
  have h12 : ¬(s.len + 1 = s.len + 2) := by omega
  have hba : b ≠ a := Ne.symm hab
  refine ⟨⟨?_, ?_⟩, ⟨?_, ?_⟩, ⟨rfl, ?_, ?_, ?_⟩, ⟨rfl, ?_, ?_, ?_, ?_⟩,
    ⟨rfl, ?_, ?_, ?_, ?_⟩, ⟨?_, ?_⟩, ⟨?_, ?_⟩⟩ <;>
    norm_num [runRule, Value.sub, Value.neg, Value.div, Value.pow, Value.new, Value.add,
      Value.mul, alloc, setGrad, addGrad, Function.update_apply, hane, hbne, hane1, hbne1,
      hane2, hbne2, hnea, hneb, hne1a, hne1b, hne2a, hne2b, h10, h01, h20, h02, h21, h12,
      hab, hba]

/-- Witness for the C5 amendment on the concrete two-leaf store: the sub
node sits at id 4 with parents `[0, 3]`, and the composite backward rules
contribute `1` to the left leaf and `-1` to the right leaf. -/
theorem c5_amended_builders_witness :
    ((Value.sub (wLeafB.1 : Store ℚ) 0 1).1.nd 4).parents = [0, 3] ∧
    ((runRule FQ (runRule FQ (setGrad (Value.sub (wLeafB.1 : Store ℚ) 0 1).1 4 1) 4)
        3).nd 0).grad = ((wLeafB.1 : Store ℚ).nd 0).grad + 1 := by
  have happ := c5_amended_builders FQ wLeafB.1 0 1 1 (by decide) (by decide) (by decide)
  exact ⟨happ.2.2.2.1.2.1, happ.2.2.2.2.2.1.1⟩

/-! ### Claim C8 -/

theorem sgdFold_spec (lr : R) :
    ∀ (ps : List Nat) (s : Store R), ps.Nodup →
      (∀ p ∈ ps,
        ((ps.foldl (fun acc q => setData acc q ((acc.nd q).data - lr * (acc.nd q).grad)) s).nd
          p).data = (s.nd p).data - lr * (s.nd p).grad) ∧
      (∀ j, j ∉ ps →
        (ps.foldl (fun acc q => setData acc q ((acc.nd q).data - lr * (acc.nd q).grad)) s).nd j
          = s.nd j) ∧
      (∀ j,
        ((ps.foldl (fun acc q => setData acc q ((acc.nd q).data - lr * (acc.nd q).grad)) s).nd
          j).grad = (s.nd j).grad) ∧
      (∀ j,
        ((ps.foldl (fun acc q => setData acc q ((acc.nd q).data - lr * (acc.nd q).grad)) s).nd
          j).parents = (s.nd j).parents) ∧
      (∀ j,
        ((ps.foldl (fun acc q => setData acc q ((acc.nd q).data - lr * (acc.nd q).grad)) s).nd
          j).op = (s.nd j).op) ∧
      (∀ j,
        ((ps.foldl (fun acc q => setData acc q ((acc.nd q).data - lr * (acc.nd q).grad)) s).nd
          j).bwd = (s.nd j).bwd) := by
  intro ps
  induction ps with
  | nil =>
      intro s _
      exact ⟨by simp, fun j _ => rfl, fun j => rfl, fun j => rfl, fun j => rfl, fun j => rfl⟩
  | cons p ps ih =>
      intro s hnd
      have hpnotin : p ∉ ps := (List.nodup_cons.mp hnd).1
      have hnd2 : ps.Nodup := (List.nodup_cons.mp hnd).2
      have hstep := ih (setData s p ((s.nd p).data - lr * (s.nd p).grad)) hnd2
      rw [List.foldl_cons]
      refine ⟨?_, ?_, ?_, ?_, ?_, ?_⟩
      · intro q hq
        rcases List.mem_cons.mp hq with hq | hq
        · rw [hq, hstep.2.1 p hpnotin, setData_nd_self]
        · have hqp : q ≠ p := fun h => hpnotin (h ▸ hq)
          rw [hstep.1 q hq, setData_nd_ne s _ hqp]
      · intro j hj
        have hjp : j ≠ p := fun h => hj (h ▸ List.mem_cons_self p ps)
        have hjps : j ∉ ps := fun h => hj (List.mem_cons_of_mem p h)
        rw [hstep.2.1 j hjps, setData_nd_ne s _ hjp]
      · intro j
        rw [hstep.2.2.1 j, setData_grad]
      · intro j
        rw [hstep.2.2.2.1 j, setData_parents]
      · intro j
        rw [hstep.2.2.2.2.1 j, setData_op]
      · intro j
        rw [hstep.2.2.2.2.2 j, setData_bwd]

/-- C8: `SGD::step` updates each (distinct) parameter in place to
`value − lr × gradient`, leaves the value of every other node alone, and
changes no gradient, parent list, operation tag or backward rule of any
node. -/
theorem c8_sgd_step (s : Store R) (o : SGD R) (hnd : o.params.Nodup) :
    (∀ p ∈ o.params, ((o.step s).nd p).data = (s.nd p).data - o.lr * (s.nd p).grad) ∧
    (∀ j, j ∉ o.params → (o.step s).nd j = s.nd j) ∧
    (∀ j, ((o.step s).nd j).grad = (s.nd j).grad) ∧
    (∀ j, ((o.step s).nd j).parents = (s.nd j).parents) ∧
    (∀ j, ((o.step s).nd j).op = (s.nd j).op) ∧
    (∀ j, ((o.step s).nd j).bwd = (s.nd j).bwd) :=
  sgdFold_spec o.lr o.params s hnd

/-- Witness for C8: stepping the product store (after one backward pass)
with parameters `[0, 1]` and learning rate `1` updates leaf 0 as
`value − grad` and leaves its gradient alone. -/
theorem c8_sgd_step_witness :
    ((SGD.step ⟨[0, 1], 1⟩ (backward FQ wMul.1 2)).nd 0).data
      = ((backward FQ wMul.1 2).nd 0).data - 1 * ((backward FQ wMul.1 2).nd 0).grad ∧
    ((SGD.step ⟨[0, 1], 1⟩ (backward FQ wMul.1 2)).nd 0).grad
      = ((backward FQ wMul.1 2).nd 0).grad := by
  have happ := c8_sgd_step (backward FQ wMul.1 2) ⟨[0, 1], 1⟩ (by decide)
  exact ⟨happ.1 0 (by decide), happ.2.2.1 0⟩

/-! ### The network module layer (`nn.rs`)

The random source is injected as a stream `rng : Nat → R` consumed at an
explicit counter, mirroring the one `gen_range` call per weight. -/

/-- `struct Neuron`, holding handles to its weight leaves and bias leaf. -/
structure Neuron where
  w : List Nat
  b : Nat
  nonlin : Bool

/-- The fused `zip / map / fold` of `Neuron::call`: for each weight-input
pair allocate the product node, then immediately the running-sum node
(Rust iterators are lazy, so the two allocations interleave per pair). -/
def foldAct (F : FloatFns R) : Store R → Nat → List (Nat × Nat) → Store R × Nat
  | s, acc, [] => (s, acc)
  | s, acc, (wi, xi) :: rest =>
      let m := Value.mul s wi xi
      let a2 := Value.add m.1 acc m.2
      foldAct F a2.1 a2.2 rest

/-- `Neuron::call`: fold `acc + wi * xi` starting from the bias, then
`tanh` if the neuron is nonlinear.  `zip` silently stops at the shorter of
the weight and input lists. -/
def Neuron.call (F : FloatFns R) (s : Store R) (n : Neuron) (x : List Nat) :
    Store R × Nat :=
  let act := foldAct F s n.b (n.w.zip x)
  if n.nonlin then Value.tanh F act.1 act.2 else act

/-- `Neuron::parameters`: the weights followed by the bias. -/
def Neuron.parameters (n : Neuron) : List Nat := n.w ++ [n.b]

/-- The weight allocation loop of `Neuron::new`: one fresh leaf per input,
drawn from the stream. -/
def mkLeaves (rng : Nat → R) : Store R → Nat → Nat → Store R × List Nat
  | s, _, 0 => (s, [])
  | s, k, nin + 1 =>
      let p := Value.new s (rng k)
      let rest := mkLeaves rng p.1 (k + 1) nin
      (rest.1, p.2 :: rest.2)

/-- `Neuron::new`: `nin` random weight leaves and a zero bias leaf. -/
def Neuron.new (s : Store R) (rng : Nat → R) (k nin : Nat) (nonlin : Bool) :
    Store R × Nat × Neuron :=
  let wres := mkLeaves rng s k nin
  let bres := Value.new wres.1 0
  (bres.1, k + nin, ⟨wres.2, bres.2, nonlin⟩)

/-- `struct Layer`. -/
structure Layer where
  neurons : List Neuron

/-- The neuron allocation loop of `Layer::new`. -/
def mkNeurons (rng : Nat → R) : Store R → Nat → Nat → Nat → Bool → Store R × Nat × List Neuron
  | s, k, _, 0, _ => (s, k, [])
  | s, k, nin, nout + 1, nl =>
      let n1 := Neuron.new s rng k nin nl
      let rest := mkNeurons rng n1.1 n1.2.1 nin nout nl
      (rest.1, rest.2.1, n1.2.2 :: rest.2.2)

/-- `Layer::new`: `nout` neurons sharing input width `nin`. -/
def Layer.new (s : Store R) (rng : Nat → R) (k nin nout : Nat) (nonlin : Bool) :
    Store R × Nat × Layer :=
  let r := mkNeurons rng s k nin nout nonlin
  (r.1, r.2.1, ⟨r.2.2⟩)

/-- `Layer::parameters`: the flattened parameters of its neurons. -/
def Layer.parameters (l : Layer) : List Nat := l.neurons.flatMap Neuron.parameters

/-- `struct MLP`. -/
structure MLP where
  layers : List Layer

/-- The layer loop of `MLP::new`: widths `sz = [nin] ++ nouts`, layer `i`
is `Layer::new(sz[i], sz[i+1], i != nouts.len()-1)` — every layer nonlinear
except the last. -/
def mkLayers (rng : Nat → R) : Store R → Nat → Nat → List Nat → Store R × Nat × List Layer
  | s, k, _, [] => (s, k, [])
  | s, k, nin, nout :: rest =>
      let l := Layer.new s rng k nin nout (!rest.isEmpty)
      let more := mkLayers rng l.1 l.2.1 nout rest
      (more.1, more.2.1, l.2.2 :: more.2.2)

/-- `MLP::new`. -/
def MLP.new (s : Store R) (rng : Nat → R) (k nin : Nat) (nouts : List Nat) :
    Store R × Nat × MLP :=
  let r := mkLayers rng s k nin nouts
  (r.1, r.2.1, ⟨r.2.2⟩)

/-- `MLP::parameters`: the flattened parameters of its layers. -/
def MLP.parameters (m : MLP) : List Nat := m.layers.flatMap Layer.parameters

/-! ### Claim C9 -/

/-- The accumulation loop of `Neuron::call` over already-allocated nodes:
it grows the store, leaves existing nodes untouched, and its result node
holds the start value plus the sum of the pairwise products, all read at
entry. -/
theorem foldAct_spec (F : FloatFns R) :
    ∀ (l : List (Nat × Nat)) (s : Store R) (acc : Nat),
      (∀ pr ∈ l, pr.1 < s.len ∧ pr.2 < s.len) → acc < s.len →
      s.len ≤ (foldAct F s acc l).1.len ∧
      (foldAct F s acc l).2 < (foldAct F s acc l).1.len ∧
      (∀ j, j < s.len → (foldAct F s acc l).1.nd j = s.nd j) ∧
      ((foldAct F s acc l).1.nd (foldAct F s acc l).2).data
        = (s.nd acc).data + (l.map (fun pr => (s.nd pr.1).data * (s.nd pr.2).data)).sum := by
  intro l
  induction l with
  | nil =>
      intro s acc _ hacc
      exact ⟨le_refl _, hacc, fun j _ => rfl, by simp [foldAct]⟩
  | cons pr rest ih =>
      intro s acc hl hacc
      obtain ⟨hw1, hx1⟩ := hl pr (List.mem_cons_self pr rest)
      have hwne : pr.1 ≠ s.len := Nat.ne_of_lt hw1
      have hxne : pr.2 ≠ s.len := Nat.ne_of_lt hx1
      have haccne : acc ≠ s.len := Nat.ne_of_lt hacc
      have haccne1 : acc ≠ s.len + 1 := by omega
      -- the store after allocating the product and the running sum
      have hfold : foldAct F s acc (pr :: rest) =
          foldAct F (Value.add (Value.mul s pr.1 pr.2).1 acc (Value.mul s pr.1 pr.2).2).1
            (Value.add (Value.mul s pr.1 pr.2).1 acc (Value.mul s pr.1 pr.2).2).2 rest := by
        cases pr
        rfl
      set s2 := (Value.add (Value.mul s pr.1 pr.2).1 acc (Value.mul s pr.1 pr.2).2).1 with hs2
      have hlen2 : s2.len = s.len + 2 := rfl
      have hacc2 : (Value.add (Value.mul s pr.1 pr.2).1 acc (Value.mul s pr.1 pr.2).2).2
          = s.len + 1 := rfl
      have hframe2 : ∀ j, j < s.len → s2.nd j = s.nd j := by
        intro j hj
        have hj1 : j ≠ s.len := Nat.ne_of_lt hj
        have hj2 : j ≠ s.len + 1 := by omega
        rw [hs2, add_nd_ne _ _ _ hj2, mul_nd_ne s pr.1 pr.2 hj1]
      have hdata2 : (s2.nd (s.len + 1)).data
          = (s.nd acc).data + (s.nd pr.1).data * (s.nd pr.2).data := by
        have h1 : s2.nd (s.len + 1) =
            ⟨((Value.mul s pr.1 pr.2).1.nd acc).data
                + ((Value.mul s pr.1 pr.2).1.nd (Value.mul s pr.1 pr.2).2).data,
              0, [acc, (Value.mul s pr.1 pr.2).2], some Ops.add,
              some (BackRule.addR acc (Value.mul s pr.1 pr.2).2)⟩ :=
          add_nd_self (Value.mul s pr.1 pr.2).1 acc (Value.mul s pr.1 pr.2).2
        rw [h1]
        show ((Value.mul s pr.1 pr.2).1.nd acc).data
            + ((Value.mul s pr.1 pr.2).1.nd s.len).data = _
        rw [mul_nd_ne s pr.1 pr.2 haccne, mul_nd_self]
      have hrest : ∀ q ∈ rest, q.1 < s2.len ∧ q.2 < s2.len := by
        intro q hq
        have := hl q (List.mem_cons_of_mem pr hq)
        rw [hlen2]
        omega
      have hacclt2 : s.len + 1 < s2.len := by
        rw [hlen2]
        omega
      have hmain := ih s2 (s.len + 1) hrest hacclt2
      rw [hfold, hacc2]
      refine ⟨?_, hmain.2.1, ?_, ?_⟩
      · calc s.len ≤ s2.len := by omega
          _ ≤ (foldAct F s2 (s.len + 1) rest).1.len := hmain.1
      · intro j hj
        rw [hmain.2.2.1 j (by omega), hframe2 j hj]
      · rw [hmain.2.2.2, hdata2]
        have hmaps : rest.map (fun q => ((s2.nd q.1).data * (s2.nd q.2).data))
            = rest.map (fun q => ((s.nd q.1).data * (s.nd q.2).data)) := by
          apply List.map_congr_left
          intro q hq
          have hq2 := hl q (List.mem_cons_of_mem pr hq)
          rw [hframe2 q.1 hq2.1, hframe2 q.2 hq2.2]
        rw [hmaps, List.map_cons, List.sum_cons]
        ring

/-- C9: `Neuron::call` on an input vector whose length differs from the
weight count raises no error: it pairs weights with inputs positionally,
stops at the shorter sequence (`zip` length is the minimum), and its
result value is the bias plus the sum over the paired prefix of
`w_i · x_i`, followed by `tanh` when the neuron is nonlinear — excess
inputs or weights contribute nothing. -/
theorem c9_neuron_truncates (F : FloatFns R) (s : Store R) (n : Neuron) (x : List Nat)
    (hw : ∀ i ∈ n.w, i < s.len) (hx : ∀ i ∈ x, i < s.len) (hb : n.b < s.len)
    (hlen : x.length ≠ n.w.length) :
    (n.w.zip x).length = min n.w.length x.length ∧
    ((Neuron.call F s n x).1.nd (Neuron.call F s n x).2).data
      = (if n.nonlin then
          F.tanh ((s.nd n.b).data
            + ((n.w.zip x).map (fun pr => (s.nd pr.1).data * (s.nd pr.2).data)).sum)
        else
          (s.nd n.b).data
            + ((n.w.zip x).map (fun pr => (s.nd pr.1).data * (s.nd pr.2).data)).sum) := by
  have hpairs : ∀ pr ∈ n.w.zip x, pr.1 < s.len ∧ pr.2 < s.len := by
    intro pr hpr
    have hmem := List.of_mem_zip hpr
    exact ⟨hw pr.1 hmem.1, hx pr.2 hmem.2⟩
  have hact := foldAct_spec F (n.w.zip x) s n.b hpairs hb
  refine ⟨List.length_zip n.w x, ?_⟩
  unfold Neuron.call
  cases hnl : n.nonlin with
  | false =>
      simp only [if_false, Bool.false_eq_true]
      rw [hact.2.2.2]
  | true =>
      simp only [if_true]
      have htanh := tanh_nd_self F (foldAct F s n.b (n.w.zip x)).1 (foldAct F s n.b (n.w.zip x)).2
      have hid : (Value.tanh F (foldAct F s n.b (n.w.zip x)).1 (foldAct F s n.b (n.w.zip x)).2).2
          = (foldAct F s n.b (n.w.zip x)).1.len := rfl
      rw [hid, htanh]
      show F.tanh _ = _
      rw [hact.2.2.2]

/-- Witness for C9: a neuron with one weight (leaf 1, value 3), bias leaf 0
(value 2), and a two-element input `[1, 0]`: the call succeeds and returns
`2 + 3·3 = 11`, the second input being silently dropped. -/
theorem c9_neuron_truncates_witness :
    ((Neuron.call FQ wLeafB.1 ⟨[1], 0, false⟩ [1, 0]).1.nd
      (Neuron.call FQ wLeafB.1 ⟨[1], 0, false⟩ [1, 0]).2).data = 11 := by
  have happ := c9_neuron_truncates FQ wLeafB.1 ⟨[1], 0, false⟩ [1, 0]
    (by decide) (by decide) (by decide) (by decide)
  rw [happ.2]
  norm_num [wLeafB, wLeafA, Value.new, alloc, emptyStore, Function.update]

/-! ### Claim C10 -/

theorem mkLeaves_length (rng : Nat → R) :
    ∀ (nin : Nat) (s : Store R) (k : Nat), (mkLeaves rng s k nin).2.length = nin := by
  intro nin
  induction nin with
  | zero => intro s k; rfl
  | succ m ih =>
      intro s k
      show ((mkLeaves rng (Value.new s (rng k)).1 (k + 1) m).2.length + 1 = m + 1)
      rw [ih]

/-- Each neuron contributes one leaf per input plus one bias leaf. -/
theorem neuronNew_params_length (s : Store R) (rng : Nat → R) (k nin : Nat) (nl : Bool) :
    (Neuron.new s rng k nin nl).2.2.parameters.length = nin + 1 := by
  show ((mkLeaves rng s k nin).2 ++ [(Value.new (mkLeaves rng s k nin).1 0).2]).length = nin + 1
  rw [List.length_append, mkLeaves_length]
  rfl

theorem mkNeurons_params_length (rng : Nat → R) (nin : Nat) (nl : Bool) :
    ∀ (nout : Nat) (s : Store R) (k : Nat),
      ((mkNeurons rng s k nin nout nl).2.2.flatMap Neuron.parameters).length
        = nout * (nin + 1) := by
  intro nout
  induction nout with
  | zero => intro s k; simp [mkNeurons]
  | succ m ih =>
      intro s k
      show (((Neuron.new s rng k nin nl).2.2 ::
          (mkNeurons rng (Neuron.new s rng k nin nl).1 (Neuron.new s rng k nin nl).2.1
            nin m nl).2.2).flatMap Neuron.parameters).length = (m + 1) * (nin + 1)
      rw [List.flatMap_cons, List.length_append, ih, neuronNew_params_length]
      ring

theorem layerNew_params_length (s : Store R) (rng : Nat → R) (k nin nout : Nat) (nl : Bool) :
    (Layer.new s rng k nin nout nl).2.2.parameters.length = nout * (nin + 1) :=
  mkNeurons_params_length rng nin nl nout s k

/-- C10: a network with widths `[2, 4, 4, 1]` (input width 2, layer sizes
4, 4, 1) has exactly `(2·4+4) + (4·4+4) + (4·1+1) = 37` parameters,
regardless of the injected random stream: each neuron contributes one leaf
per input plus one bias leaf. -/
theorem c10_mlp_parameter_count (s : Store R) (rng : Nat → R) (k : Nat) :
    ((MLP.new s rng k 2 [4, 4, 1]).2.2.parameters).length = 37 := by
  show ((Layer.new s rng k 2 4 (!([4, 1] : List Nat).isEmpty)).2.2.parameters ++
      ((Layer.new _ rng _ 4 4 (!([1] : List Nat).isEmpty)).2.2.parameters ++
        ((Layer.new _ rng _ 4 1 (!([] : List Nat).isEmpty)).2.2.parameters ++ []))).length = 37
  rw [List.length_append, List.length_append, List.length_append,
    layerNew_params_length, layerNew_params_length, layerNew_params_length]
  rfl

end AutoDiff
